import Mathlib

/-!
# Verification of the secretable secret-encryption subsystem

Shallow embedding of the crypto envelope code of the `secretable` repository
(`pkg/crypto/assymetric.go`, `pkg/crypto/encrypt.go`), of the master-password
reset handler (`Handler.ResetPass`) and of the cached table provider
(`pkg/tables/tables.go`), together with proofs and refutations of the spec's
claims about them.

Bytes are modelled as `Nat` (Go `byte` values are `< 256`; where a claim
depends on truncation the embedding writes `% 256` explicitly).  Byte slices
are `List Nat`.  Library primitives that live outside the repository
(SHA-512, the AES block permutation, the P-521 curve operations, the GCM
core) are abstract function parameters gathered in small structures; every
construction the repository itself performs on top of them (HMAC, CBC
chaining, PBKDF2, padding, blob framing, parsing, the MAC check) is embedded
concretely, mirroring the Go statements.

Go runtime panics (out-of-range slice expressions, `CryptBlocks` on input
that is not a whole number of blocks, indexing an empty slice) are modelled
by a dedicated `GoRes.crash` result; Go `error` returns by `GoRes.err`.
-/

namespace Secretable

/-- The error values of `pkg/crypto` (the `var` block of `assymetric.go`)
plus the AES key-size error of `aes.NewCipher` and the GCM authentication
error of `cipher.AEAD.Open`. -/
inductive CryptoErr where
  | paddingIncorrect
  | invalidMAC
  | generateEncKey
  | invalidPublicKey
  | invalidCipher
  | keySize
  | authFailed
  deriving DecidableEq

/-- Result of a Go function that can return a value, return an `error`, or
panic at runtime (`crash`). -/
inductive GoRes (α : Type) where
  | ok : α → GoRes α
  | err : CryptoErr → GoRes α
  | crash : GoRes α
  deriving DecidableEq

/-- Case analysis on an `Except` result — the Go `if err != nil` idiom
after a fallible call, factored out so that definitions never match
directly on a computed discriminant. -/
def exceptCase {α β : Type} (r : Except CryptoErr α)
    (fok : α → β) (ferr : CryptoErr → β) : β :=
  match r with
  | .ok a => fok a
  | .error e => ferr e

/-- Case analysis on a `GoRes` — `if err != nil` plus panic propagation,
factored out for the same reason as `exceptCase`. -/
def goResCase {α β : Type} (r : GoRes α)
    (fok : α → β) (ferr : CryptoErr → β) (fcrash : β) : β :=
  match r with
  | .ok a => fok a
  | .err e => ferr e
  | .crash => fcrash

/-- `sha512.Size`: output size of the 512-bit hash, in bytes. -/
def hashSize : Nat := 64

/-- `aes.BlockSize`: the AES block size in bytes. -/
def blockSize : Nat := 16

/-- `addPadding` (assymetric.go lines 163-169): computes
`l := 32 - len(b)%32`, allocates a zero-filled padding slice of length `l`
(`make([]byte, l)` zero-fills), sets only its **last** byte to `l`
(`padding[l-1] = byte(l)`; `l ∈ [1,32]` so `byte(l) = l`), and appends. -/
def addPadding (b : List Nat) : List Nat :=
  let l := 32 - b.length % 32
  b ++ (List.replicate (l - 1) 0 ++ [l])

/-- `removePadding` (assymetric.go lines 154-161): reads the last byte
`l := int(body[len(body)-1])` — a Go panic (index `-1`) when `body` is
empty — errors with `ErrPaddingIncorrect` when `l > 32`, and otherwise
returns `body[:len(body)-l]` — a slice expression that panics when
`len(body) - l` is negative, i.e. when `l` exceeds the body length. -/
def removePadding (body : List Nat) : GoRes (List Nat) :=
  match body.getLast? with
  | none => .crash
  | some l =>
    if 32 < l then .err .paddingIncorrect
    else if body.length < l then .crash
    else .ok (body.take (body.length - l))

/-- Byte-wise XOR of two byte strings (truncating to the shorter, as
`List.zipWith` does; every use in the embedding is on equal 16- or 64-byte
operands, mirroring the fixed-size buffers of the Go code). -/
def zipXor (a b : List Nat) : List Nat := List.zipWith (fun x y => x ^^^ y) a b

/-- One CBC encryption pass (`cipher.NewCBCEncrypter(...).CryptBlocks`):
`n` is the number of 16-byte blocks still to process, `prev` the previous
ciphertext block (initially the IV); each step emits
`c = E(block XOR prev)` and chains on `c`. -/
def cbcEncAux (eB : List Nat → List Nat) : Nat → List Nat → List Nat → List Nat
  | 0, _, _ => []
  | n + 1, prev, data =>
    let c := eB (zipXor (data.take blockSize) prev)
    c ++ cbcEncAux eB n c (data.drop blockSize)

/-- One CBC decryption pass (`cipher.NewCBCDecrypter(...).CryptBlocks`):
each step emits `D(c) XOR prev` and chains on the ciphertext block `c`. -/
def cbcDecAux (dB : List Nat → List Nat) : Nat → List Nat → List Nat → List Nat
  | 0, _, _ => []
  | n + 1, prev, data =>
    zipXor (dB (data.take blockSize)) prev
      ++ cbcDecAux dB n (data.take blockSize) (data.drop blockSize)

/-- `encryptCBC` (assymetric.go lines 131-142): `aes.NewCipher(key)` errors
unless the key is 16, 24 or 32 bytes; `cipher.NewCBCEncrypter` panics when
the IV is not one block; `CryptBlocks` panics when the input is not a whole
number of blocks, and otherwise runs the CBC chain over `len(data)/16`
blocks. -/
def encryptCBC (aesEnc : List Nat → List Nat → List Nat)
    (data iv key : List Nat) : GoRes (List Nat) :=
  if key.length = 16 ∨ key.length = 24 ∨ key.length = 32 then
    if iv.length = blockSize then
      if data.length % blockSize = 0 then
        .ok (cbcEncAux (aesEnc key) (data.length / blockSize) iv data)
      else .crash
    else .crash
  else .err .keySize

/-- `decryptCBC` (assymetric.go lines 119-129), same guards as
`encryptCBC`. -/
def decryptCBC (aesDec : List Nat → List Nat → List Nat)
    (data iv key : List Nat) : GoRes (List Nat) :=
  if key.length = 16 ∨ key.length = 24 ∨ key.length = 32 then
    if iv.length = blockSize then
      if data.length % blockSize = 0 then
        .ok (cbcDecAux (aesDec key) (data.length / blockSize) iv data)
      else .crash
    else .crash
  else .err .keySize

/-- `hmac.New(sha512.New, key)` followed by writes and `Sum`: the standard
HMAC construction over a hash with 128-byte rate (SHA-512's block size).
A key longer than 128 bytes is first hashed; the key is then zero-padded to
128 bytes, and the result is `H(kp XOR opad ‖ H(kp XOR ipad ‖ msg))` with
`ipad = 0x36`, `opad = 0x5c`. -/
def hmacSum (hash : List Nat → List Nat) (key msg : List Nat) : List Nat :=
  let k0 := if 128 < key.length then hash key else key
  let kp := k0 ++ List.replicate (128 - k0.length) 0
  hash ((kp.map fun b => b ^^^ 92) ++ hash ((kp.map fun b => b ^^^ 54) ++ msg))

/-- The library primitives `pkg/crypto` relies on for the asymmetric
envelope, abstracted over the curve's point type: `sha512.Sum512`, the AES
block permutation and its inverse (keyed), and the `crypto/elliptic` P-521
operations.  `scalarBaseMult` is the public-key map of
`ecdsa.GenerateKey` (`d ↦ d·G`, never the point at infinity for a valid
scalar, hence total); `scalarMult` returns `none` for the point at
infinity (the `x == nil` case); `marshal` is `elliptic.Marshal`
(uncompressed point form) and `unmarshal` is `elliptic.Unmarshal`
(`none` models `x == nil`: point not on curve / bad encoding). -/
structure AsymPrims (Point : Type) where
  sha512 : List Nat → List Nat
  aesEnc : List Nat → List Nat → List Nat
  aesDec : List Nat → List Nat → List Nat
  scalarBaseMult : List Nat → Point
  scalarMult : Point → List Nat → Option Point
  xBytes : Point → List Nat
  marshal : Point → List Nat
  unmarshal : List Nat → Option Point

/-- `EncryptWithPub` (assymetric.go lines 37-75).  The randomness drawn
inside the Go function — the ephemeral scalar from `ecdsa.GenerateKey` and
the 16 random IV bytes from `makeRandom(16)` — is passed in explicitly
(`ephD`, `iv`); the rand-reader error branches, which depend only on the
random source and not on the inputs, are not modelled.  The blob is built
exactly as the Go code does: `out[0] = byte(len(ephPub))` (a mod-256 byte
cast), then `ephPub`, then the IV, then the CBC ciphertext appended, and
finally `h.Sum(out)` appends the HMAC of `IV ‖ ciphertext` keyed by
`shared[32:]`. -/
def encryptWithPub {Point : Type} (pr : AsymPrims Point) (pub : Point)
    (ephD iv input : List Nat) : GoRes (List Nat) :=
  match pr.scalarMult pub ephD with
  | none => .err .generateEncKey
  | some s =>
    let shared := pr.sha512 (pr.xBytes s)
    match encryptCBC pr.aesEnc (addPadding input) iv (shared.take 32) with
    | .err e => .err e
    | .crash => .crash
    | .ok encdata =>
      let ephPub := pr.marshal (pr.scalarBaseMult ephD)
      .ok ((ephPub.length % 256 :: (ephPub ++ iv)) ++ encdata
        ++ hmacSum pr.sha512 (shared.drop 32) (iv ++ encdata))

/-- `DecryptWithPriv` (assymetric.go lines 77-117).  `cipher[1:1+ephLen]`
and `cipher[1+ephLen:]` are Go slice expressions that panic when
`1+ephLen` exceeds the slice capacity (equal to its length for a caller's
freshly-built slice) — modelled by `.crash`; note that this slicing
happens **before** the `len(encdata) < sha512.Size+aes.BlockSize` check.
`hmac.Equal` is a (constant-time) byte-wise equality. -/
def decryptWithPriv {Point : Type} (pr : AsymPrims Point)
    (privD input : List Nat) : GoRes (List Nat) :=
  if input.length = 0 then .err .invalidCipher
  else
    let ephLen := input.headD 0
    if input.length < 1 + ephLen then .crash
    else
      let ephPub := (input.drop 1).take ephLen
      let encdata := input.drop (1 + ephLen)
      if encdata.length < hashSize + blockSize then .err .invalidCipher
      else
        match pr.unmarshal ephPub with
        | none => .err .invalidPublicKey
        | some q =>
          match pr.scalarMult q privD with
          | none => .err .generateEncKey
          | some s =>
            let shared := pr.sha512 (pr.xBytes s)
            let tagStart := encdata.length - hashSize
            let mac := hmacSum pr.sha512 (shared.drop 32) (encdata.take tagStart)
            if mac = encdata.drop tagStart then
              match decryptCBC pr.aesDec ((encdata.take tagStart).drop blockSize)
                  (encdata.take blockSize) (shared.take 32) with
              | .err e => .err e
              | .crash => .crash
              | .ok paddedOut => removePadding paddedOut
            else .err .invalidMAC

/-- The inner loop of one PBKDF2 block (x/crypto/pbkdf2 `Key`): starting
from `U₁`, repeatedly apply the PRF and XOR into the accumulator `t`;
`n` is the number of remaining iterations (`iter - 1` for the whole
block, since `U₁` is already folded in). -/
def pbkdf2T (prf : List Nat → List Nat) (n : Nat) (u t : List Nat) : List Nat :=
  if n = 0 then t
  else
    let u2 := prf u
    pbkdf2T prf (n - 1) u2 (zipXor t u2)
termination_by n
decreasing_by omega

/-- 4-byte big-endian block counter written into the PRF input. -/
def intBE4 (n : Nat) : List Nat :=
  [n / 2 ^ 24 % 256, n / 2 ^ 16 % 256, n / 2 ^ 8 % 256, n % 256]

/-- `pbkdf2.Key(password, salt, iter, keyLen, h)` from x/crypto/pbkdf2:
`numBlocks = ⌈keyLen/hashLen⌉` blocks `T(1) ‖ T(2) ‖ …`, where
`T(i) = U₁ ⊕ … ⊕ U_iter`, `U₁ = PRF(password, salt ‖ BE32(i))`,
`U_{j+1} = PRF(password, U_j)`; the concatenation is truncated to
`keyLen`.  `hashLen` is the PRF output size (`prf.Size()`, 64 for
HMAC-SHA-512). -/
def pbkdf2Key (prf : List Nat → List Nat → List Nat)
    (password salt : List Nat) (iter keyLen hashLen : Nat) : List Nat :=
  let numBlocks := (keyLen + hashLen - 1) / hashLen
  ((List.range numBlocks).foldl
    (fun dk blk =>
      let u1 := prf password (salt ++ intBE4 (blk + 1))
      dk ++ pbkdf2T (prf password) (iter - 1) u1 u1)
    []).take keyLen

/-- The PBKDF2 iteration count `DeriveCipher` passes (encrypt.go line 72):
200000.  Kept behind an `irreducible` wrapper so that unfolding the
embedding does not expand the iteration recursion literally. -/
@[irreducible] def pbkdf2Iterations : Nat := 200000

/-- The 32-byte AES key `DeriveCipher` derives (encrypt.go lines 70-78):
`pbkdf2.Key(password, keySalt, 200000, AESKeySize, hashNew)` with
`AESKeySize = 32` and `hashNew = sha512.New` (so the PRF is HMAC-SHA-512,
output size 64). -/
def deriveKey (sha : List Nat → List Nat) (password keySalt : List Nat) : List Nat :=
  pbkdf2Key (fun pw m => hmacSum sha pw m) password keySalt pbkdf2Iterations 32 64

/-- `DeriveCipher` (encrypt.go lines 70-78): `aes.NewCipher` errors unless
the derived key is 16, 24 or 32 bytes; `cipher.NewGCM` errors only for a
block size other than 16 bytes, which AES never has, so a successfully
built block cipher always yields an AEAD.  The AEAD an `ok` result
denotes is GCM under the returned key. -/
def deriveCipher (sha : List Nat → List Nat)
    (password keySalt : List Nat) : Except CryptoErr (List Nat) :=
  let key := deriveKey sha password keySalt
  if key.length = 16 ∨ key.length = 24 ∨ key.length = 32 then .ok key
  else .error .keySize

/-- The AES-GCM core of crypto/cipher, abstract: `gcmSeal key nonce pt`
is `Seal(nil, nonce, pt, nil)` after the nonce-size guard, and `gcmOpen`
is `Open(nil, nonce, ct, nil)` after the same guard (failing with the
authentication error on a bad tag). -/
structure GCMPrims where
  gcmSeal : List Nat → List Nat → List Nat → List Nat
  gcmOpen : List Nat → List Nat → List Nat → Except CryptoErr (List Nat)

/-- `NonceSize` (encrypt.go): GCM's standard 96-bit nonce, in bytes. -/
def nonceSize : Nat := 12

/-- `EncryptWithPhrase` (encrypt.go lines 38-44): derive the AEAD, then
`gcm.Seal(nil, nonce, plaintext, nil)`; `Seal` panics when the nonce is
not `NonceSize` bytes. -/
def encryptWithPhrase (gp : GCMPrims) (sha : List Nat → List Nat)
    (phrase salt nonce plaintext : List Nat) : GoRes (List Nat) :=
  exceptCase (deriveCipher sha phrase salt)
    (fun key =>
      if nonce.length = nonceSize then .ok (gp.gcmSeal key nonce plaintext)
      else .crash)
    (fun e => .err e)

/-- `DecryptWithPhrase` (encrypt.go lines 46-53): derive the AEAD, then
`gcm.Open(nil, nonce, ciphertext, nil)`; `Open` panics when the nonce is
not `NonceSize` bytes. -/
def decryptWithPhrase (gp : GCMPrims) (sha : List Nat → List Nat)
    (phrase salt nonce ciphertext : List Nat) : GoRes (List Nat) :=
  exceptCase (deriveCipher sha phrase salt)
    (fun key =>
      if nonce.length = nonceSize then
        exceptCase (gp.gcmOpen key nonce ciphertext)
          (fun pt => .ok pt) (fun e => .err e)
      else .crash)
    (fun e => .err e)

/-- The state `Handler.ResetPass` acts on: the in-memory config salt
(`h.Config.Salt`), the salt persisted in the config file
(`config.UpdateFile`), the wrapped-key cell of the backing store
(`TablesProvider.SetKey`) and the in-memory master password
(`h.mastePass`). -/
structure BotState where
  cfgSalt : List Nat
  fileSalt : List Nat
  tableKey : List Nat
  mastePass : List Nat
  deriving DecidableEq

/-- `Handler.ResetPass` (handlers, lines 153-196), with the external
outcomes injected: `b58` is `base58.Encode` (abstract), `updateFileOk`
and `setKeyOk` say whether `config.UpdateFile` and
`TablesProvider.SetKey` succeed, `privOk` whether `getPrivkeyAsBytes`
returned a key, and `newSaltBytes`/`nonce` are the values drawn from
`crypto.MakeRandom`.  Mirrors the source statement by statement:
on empty input or a missing private key nothing changes; the new salt is
written to `h.Config.Salt` and persisted; **only** an `UpdateFile`
failure restores `oldSalt`; an `EncryptWithPhrase` error or a `SetKey`
failure returns with the new salt still in place; on full success the
wrapped key and master password are updated. -/
def resetPass (gp : GCMPrims) (sha : List Nat → List Nat)
    (b58 : List Nat → List Nat) (updateFileOk setKeyOk : Bool)
    (newSaltBytes nonce : List Nat) (privOk : Bool)
    (privkeyBytes newPass : List Nat) (st : BotState) : BotState :=
  if newPass = [] then st
  else if privOk = false then st
  else
    let oldSalt := st.cfgSalt
    let st1 : BotState := { st with cfgSalt := b58 newSaltBytes }
    if updateFileOk = false then { st1 with cfgSalt := oldSalt }
    else
      let st2 : BotState := { st1 with fileSalt := st1.cfgSalt }
      goResCase (encryptWithPhrase gp sha newPass st2.cfgSalt nonce privkeyBytes)
        (fun c =>
          if setKeyOk = false then st2
          else { st2 with tableKey := b58 (nonce ++ c), mastePass := newPass })
        (fun _ => st2) st2

/-- The `TablesProvider` cache for the `Encrypted` sheet, with Go slice
aliasing made explicit: `heap` is the arena of row backing arrays and
`refs` the outer `[][]string` slice, a list of row references (indices
into `heap`).  `GetEncrypted` copies only the outer slice
(`copy(rows, s.encrypted)` copies the row headers), so the returned value
holds the **same** row references as the cache. -/
structure TablesProvider where
  heap : List (List String)
  refs : List Nat
  deriving DecidableEq

/-- The rows a caller observes when reading through a `[][]string` value
whose row references point into `tp.heap`. -/
def readRows (tp : TablesProvider) (rows : List Nat) : List (List String) :=
  rows.map fun r => tp.heap.getD r []

/-- `TablesProvider.GetEncrypted` (tables.go lines 229-235): under the
read lock, `rows = make([][]string, len(s.encrypted)); copy(rows,
s.encrypted)` — a fresh outer slice holding the same row references. -/
def getEncrypted (tp : TablesProvider) : List Nat := tp.refs

/-- An in-place write `row[i] = v` through a row reference `r`, as
`queryEncrypted` performs on rows obtained from `GetEncrypted`. -/
def setCell (tp : TablesProvider) (r i : Nat) (v : String) : TablesProvider :=
  { tp with heap := tp.heap.set r ((tp.heap.getD r []).set i v) }

/-- The mutation `Handler.queryEncrypted` (handlers.go lines 135-182)
performs on the matching row of a `GetEncrypted` result:
`row[1] = string(decUsername); row[2] = string(decPassword)` on the row
at outer index `j`. -/
def queryMutate (tp : TablesProvider) (j : Nat) (u p : String) : TablesProvider :=
  let r := (getEncrypted tp).getD j 0
  setCell (setCell tp r 1 u) r 2 p

/-- A degenerate instantiation of the curve/cipher primitives — a one-point
curve, the identity block permutation and a constant 64-byte hash — used to
exhibit concrete runs of the envelope functions. -/
def unitPrims : AsymPrims Unit where
  sha512 := fun _ => List.replicate 64 0
  aesEnc := fun _ blk => blk
  aesDec := fun _ blk => blk
  scalarBaseMult := fun _ => ()
  scalarMult := fun _ _ => some ()
  xBytes := fun _ => []
  marshal := fun _ => []
  unmarshal := fun _ => some ()

/-- A degenerate GCM core (identity seal, always-accepting open), a valid
instance of the AEAD round-trip contract, for concrete runs. -/
def idGCM : GCMPrims where
  gcmSeal := fun _ _ pt => pt
  gcmOpen := fun _ _ ct => .ok ct

/-- A constant 64-byte hash, for concrete runs of the symmetric path. -/
def zeroSha : List Nat → List Nat := fun _ => List.replicate 64 0

theorem exceptCase_ok {α β : Type} (a : α) (fok : α → β) (ferr : CryptoErr → β) :
    exceptCase (Except.ok a) fok ferr = fok a := rfl

theorem exceptCase_error {α β : Type} (e : CryptoErr) (fok : α → β)
    (ferr : CryptoErr → β) : exceptCase (Except.error e) fok ferr = ferr e := rfl

theorem goResCase_ok {α β : Type} (a : α) (fok : α → β) (ferr : CryptoErr → β)
    (fc : β) : goResCase (GoRes.ok a) fok ferr fc = fok a := rfl

theorem goResCase_err {α β : Type} (e : CryptoErr) (fok : α → β)
    (ferr : CryptoErr → β) (fc : β) : goResCase (GoRes.err e) fok ferr fc = ferr e := rfl

theorem goResCase_crash {α β : Type} (fok : α → β) (ferr : CryptoErr → β)
    (fc : β) : goResCase (GoRes.crash : GoRes α) fok ferr fc = fc := rfl

theorem zipXor_length (a b : List Nat) :
    (zipXor a b).length = min a.length b.length :=
  List.length_zipWith _ _ _

theorem zipXor_cancel {a b : List Nat} (h : a.length = b.length) :
    zipXor (zipXor a b) b = a := by
  induction a generalizing b with
  | nil =>
    cases b with
    | nil => rfl
    | cons y ys => simp at h
  | cons x xs ih =>
    cases b with
    | nil => simp at h
    | cons y ys =>
      simp only [List.length_cons, Nat.succ.injEq] at h
      simp only [zipXor, List.zipWith_cons_cons] at *
      rw [Nat.xor_cancel_right]
      exact congrArg (x :: ·) (ih h)

theorem padLen_pos (n : Nat) : 1 ≤ 32 - n % 32 := by
  have := Nat.mod_lt n (show 0 < 32 by decide)
  omega

theorem padLen_le (n : Nat) : 32 - n % 32 ≤ 32 := by omega

theorem addPadding_length (b : List Nat) :
    (addPadding b).length = b.length + (32 - b.length % 32) := by
  have h1 := padLen_pos b.length
  simp only [addPadding, List.length_append, List.length_replicate,
    List.length_cons, List.length_nil]
  omega

theorem addPadding_length_mod (b : List Nat) : (addPadding b).length % 32 = 0 := by
  rw [addPadding_length]
  have := Nat.div_add_mod b.length 32
  have := Nat.mod_lt b.length (show 0 < 32 by decide)
  omega

theorem addPadding_getLast? (b : List Nat) :
    (addPadding b).getLast? = some (32 - b.length % 32) := by
  simp only [addPadding]
  rw [show b ++ (List.replicate (32 - b.length % 32 - 1) 0 ++ [32 - b.length % 32])
      = (b ++ List.replicate (32 - b.length % 32 - 1) 0) ++ [32 - b.length % 32] by
    simp [List.append_assoc]]
  simp [List.getLast?_append]

theorem take_append_of_length (a b : List Nat) (n : Nat) (h : a.length = n) :
    (a ++ b).take n = a := by
  subst h
  exact List.take_left a b

theorem drop_append_of_length (a b : List Nat) (n : Nat) (h : a.length = n) :
    (a ++ b).drop n = b := by
  subst h
  exact List.drop_left a b

theorem removePadding_addPadding (b : List Nat) :
    removePadding (addPadding b) = .ok b := by
  have hl := padLen_pos b.length
  have hle := padLen_le b.length
  have hg := addPadding_getLast? b
  simp only [removePadding, hg]
  rw [if_neg (by omega)]
  rw [if_neg (by rw [addPadding_length]; omega)]
  rw [addPadding_length]
  have htake : b.length + (32 - b.length % 32) - (32 - b.length % 32) = b.length := by
    omega
  rw [htake]
  show GoRes.ok ((b ++ _).take b.length) = _
  rw [take_append_of_length _ _ _ rfl]

theorem cbcEncAux_length (eB : List Nat → List Nat)
    (hE : ∀ blk : List Nat, blk.length = 16 → (eB blk).length = 16) :
    ∀ (n : Nat) (prev data : List Nat), prev.length = 16 →
      16 * n ≤ data.length → (cbcEncAux eB n prev data).length = 16 * n := by
  intro n
  induction n with
  | zero => intro prev data _ _; simp [cbcEncAux]
  | succ m ih =>
    intro prev data hprev hlen
    have htk : (data.take blockSize).length = 16 := by
      simp only [List.length_take, blockSize]
      omega
    have hc : (eB (zipXor (data.take blockSize) prev)).length = 16 := by
      apply hE
      rw [zipXor_length, htk, hprev]
      exact Nat.min_self 16
    simp only [cbcEncAux, List.length_append, hc]
    rw [ih _ _ hc (by simp only [List.length_drop, blockSize]; omega)]
    ring

theorem cbc_roundtrip (eB dB : List Nat → List Nat)
    (hinv : ∀ blk : List Nat, blk.length = 16 → dB (eB blk) = blk)
    (hE : ∀ blk : List Nat, blk.length = 16 → (eB blk).length = 16) :
    ∀ (n : Nat) (prev data : List Nat), prev.length = 16 →
      data.length = 16 * n →
      cbcDecAux dB n prev (cbcEncAux eB n prev data) = data := by
  intro n
  induction n with
  | zero =>
    intro prev data _ hlen
    have : data = [] := List.length_eq_zero.mp (by omega)
    simp [cbcEncAux, cbcDecAux, this]
  | succ m ih =>
    intro prev data hprev hlen
    have htk : (data.take blockSize).length = 16 := by
      simp only [List.length_take, blockSize]
      omega
    have hx : (zipXor (data.take blockSize) prev).length = 16 := by
      rw [zipXor_length, htk, hprev]
      exact Nat.min_self 16
    have hc : (eB (zipXor (data.take blockSize) prev)).length = 16 := hE _ hx
    simp only [cbcEncAux, cbcDecAux]
    have hc' : (eB (zipXor (data.take blockSize) prev)).length = blockSize := hc
    rw [take_append_of_length _ _ blockSize hc', drop_append_of_length _ _ blockSize hc']
    rw [hinv _ hx, zipXor_cancel (by rw [htk, hprev])]
    rw [ih _ _ hc (by simp only [List.length_drop, blockSize]; omega)]
    exact List.take_append_drop _ _

theorem hmacSum_length (hash : List Nat → List Nat)
    (h64 : ∀ m : List Nat, (hash m).length = 64) (key msg : List Nat) :
    (hmacSum hash key msg).length = 64 :=
  h64 _

theorem encryptWithPub_ok {Point : Type} (pr : AsymPrims Point) (pub : Point)
    (ephD iv input : List Nat) (s : Point)
    (hsha : ∀ m : List Nat, (pr.sha512 m).length = 64)
    (hiv : iv.length = 16)
    (hdh : pr.scalarMult pub ephD = some s) :
    encryptWithPub pr pub ephD iv input =
      .ok (((pr.marshal (pr.scalarBaseMult ephD)).length % 256
              :: (pr.marshal (pr.scalarBaseMult ephD) ++ iv))
        ++ (cbcEncAux (pr.aesEnc ((pr.sha512 (pr.xBytes s)).take 32))
              ((addPadding input).length / blockSize) iv (addPadding input)
          ++ hmacSum pr.sha512 ((pr.sha512 (pr.xBytes s)).drop 32)
              (iv ++ cbcEncAux (pr.aesEnc ((pr.sha512 (pr.xBytes s)).take 32))
                ((addPadding input).length / blockSize) iv (addPadding input)))) := by
  have hkey : ((pr.sha512 (pr.xBytes s)).take 32).length = 32 := by
    rw [List.length_take, hsha]
    decide
  have hmod : (addPadding input).length % blockSize = 0 := by
    have := addPadding_length_mod input
    show _ % 16 = 0
    omega
  simp only [encryptWithPub, hdh, encryptCBC]
  rw [if_pos (Or.inr (Or.inr hkey)),
    if_pos (show iv.length = blockSize from hiv), if_pos hmod]
  simp

theorem decryptWithPriv_layout {Point : Type} (pr : AsymPrims Point)
    (privD E iv ct mac : List Nat) (q s : Point)
    (hml : E.length ≤ 255) (hiv : iv.length = 16) (hmac : mac.length = 64)
    (hunm : pr.unmarshal E = some q)
    (hsm : pr.scalarMult q privD = some s) :
    decryptWithPriv pr privD (E.length % 256 :: (E ++ (iv ++ (ct ++ mac)))) =
      (if hmacSum pr.sha512 ((pr.sha512 (pr.xBytes s)).drop 32) (iv ++ ct) = mac
       then
        match decryptCBC pr.aesDec ct iv ((pr.sha512 (pr.xBytes s)).take 32) with
        | .ok paddedOut => removePadding paddedOut
        | .err e => .err e
        | .crash => .crash
       else .err .invalidMAC) := by
  have hL : E.length % 256 = E.length := Nat.mod_eq_of_lt (by omega)
  rw [hL]
  have hlen : (E.length :: (E ++ (iv ++ (ct ++ mac)))).length
      = 1 + (E.length + (16 + (ct.length + 64))) := by
    simp [List.length_cons, List.length_append, hiv, hmac]
    omega
  simp only [decryptWithPriv, List.headD_cons]
  rw [if_neg (by rw [hlen]; omega)]
  rw [if_neg (by rw [hlen]; omega)]
  have hdrop1 : (E.length :: (E ++ (iv ++ (ct ++ mac)))).drop 1
      = E ++ (iv ++ (ct ++ mac)) := by
    simp
  have htail : (E.length :: (E ++ (iv ++ (ct ++ mac)))).drop (1 + E.length)
      = iv ++ (ct ++ mac) := by
    rw [show 1 + E.length = E.length + 1 by omega]
    rw [List.drop_succ_cons, drop_append_of_length _ _ _ rfl]
  rw [hdrop1, htail, take_append_of_length _ _ _ rfl]
  have hrest : (iv ++ (ct ++ mac)).length = 16 + (ct.length + 64) := by
    simp [List.length_append, hiv, hmac]
  rw [if_neg (by rw [hrest]; show ¬(_ < 64 + 16); omega)]
  simp only [hunm, hsm]
  have htag : (iv ++ (ct ++ mac)).length - hashSize = iv.length + ct.length := by
    simp only [List.length_append, hiv, hmac, hashSize]
    omega
  rw [htag, List.take_append, List.drop_append,
    take_append_of_length _ _ _ rfl, drop_append_of_length _ _ _ rfl]
  rw [drop_append_of_length _ _ blockSize (show iv.length = blockSize from hiv),
    take_append_of_length _ _ blockSize (show iv.length = blockSize from hiv)]
  split
  · cases decryptCBC pr.aesDec ct iv ((pr.sha512 (pr.xBytes s)).take 32) <;> rfl
  · rfl

theorem asym_roundtrip {Point : Type} (pr : AsymPrims Point)
    (privD ephD iv input : List Nat) (s : Point)
    (hsha : ∀ m : List Nat, (pr.sha512 m).length = 64)
    (hinv : ∀ k blk : List Nat, blk.length = 16 → pr.aesDec k (pr.aesEnc k blk) = blk)
    (hEln : ∀ k blk : List Nat, blk.length = 16 → (pr.aesEnc k blk).length = 16)
    (hiv : iv.length = 16)
    (hml : (pr.marshal (pr.scalarBaseMult ephD)).length ≤ 255)
    (hdh1 : pr.scalarMult (pr.scalarBaseMult privD) ephD = some s)
    (hunm : pr.unmarshal (pr.marshal (pr.scalarBaseMult ephD))
      = some (pr.scalarBaseMult ephD))
    (hdh2 : pr.scalarMult (pr.scalarBaseMult ephD) privD = some s) :
    ∃ blob, encryptWithPub pr (pr.scalarBaseMult privD) ephD iv input = .ok blob
      ∧ decryptWithPriv pr privD blob = .ok input := by
  have hkey : ((pr.sha512 (pr.xBytes s)).take 32).length = 32 := by
    rw [List.length_take, hsha]
    decide
  have hmod32 := addPadding_length_mod input
  have hmod : (addPadding input).length % blockSize = 0 := by
    show _ % 16 = 0
    omega
  have hle16 : 16 * ((addPadding input).length / blockSize) ≤ (addPadding input).length := by
    show 16 * ((addPadding input).length / 16) ≤ (addPadding input).length
    omega
  have hctlen : (cbcEncAux (pr.aesEnc ((pr.sha512 (pr.xBytes s)).take 32))
      ((addPadding input).length / blockSize) iv (addPadding input)).length
      = (addPadding input).length := by
    rw [cbcEncAux_length _ (hEln _) _ _ _ hiv hle16]
    show 16 * ((addPadding input).length / 16) = (addPadding input).length
    omega
  refine ⟨_, encryptWithPub_ok pr _ ephD iv input s hsha hiv hdh1, ?_⟩
  rw [show ((pr.marshal (pr.scalarBaseMult ephD)).length % 256
          :: (pr.marshal (pr.scalarBaseMult ephD) ++ iv))
        ++ (cbcEncAux (pr.aesEnc ((pr.sha512 (pr.xBytes s)).take 32))
              ((addPadding input).length / blockSize) iv (addPadding input)
          ++ hmacSum pr.sha512 ((pr.sha512 (pr.xBytes s)).drop 32)
              (iv ++ cbcEncAux (pr.aesEnc ((pr.sha512 (pr.xBytes s)).take 32))
                ((addPadding input).length / blockSize) iv (addPadding input)))
      = (pr.marshal (pr.scalarBaseMult ephD)).length % 256
          :: (pr.marshal (pr.scalarBaseMult ephD)
            ++ (iv ++ (cbcEncAux (pr.aesEnc ((pr.sha512 (pr.xBytes s)).take 32))
                  ((addPadding input).length / blockSize) iv (addPadding input)
              ++ hmacSum pr.sha512 ((pr.sha512 (pr.xBytes s)).drop 32)
                  (iv ++ cbcEncAux (pr.aesEnc ((pr.sha512 (pr.xBytes s)).take 32))
                    ((addPadding input).length / blockSize) iv (addPadding input)))))
    by simp [List.cons_append, List.append_assoc]]
  rw [decryptWithPriv_layout pr privD _ iv _ _ (pr.scalarBaseMult ephD) s hml hiv
    (hmacSum_length _ hsha _ _) hunm hdh2]
  rw [if_pos rfl]
  have hdec : decryptCBC pr.aesDec
      (cbcEncAux (pr.aesEnc ((pr.sha512 (pr.xBytes s)).take 32))
        ((addPadding input).length / blockSize) iv (addPadding input)) iv
      ((pr.sha512 (pr.xBytes s)).take 32) = .ok (addPadding input) := by
    simp only [decryptCBC]
    rw [if_pos (Or.inr (Or.inr hkey)), if_pos (show iv.length = blockSize from hiv),
      if_pos (by rw [hctlen]; exact hmod)]
    rw [show (cbcEncAux (pr.aesEnc ((pr.sha512 (pr.xBytes s)).take 32))
          ((addPadding input).length / blockSize) iv (addPadding input)).length / blockSize
        = (addPadding input).length / blockSize by rw [hctlen]]
    rw [cbc_roundtrip _ _ (hinv _) (hEln _) _ iv (addPadding input) hiv
      (by show (addPadding input).length = 16 * ((addPadding input).length / 16); omega)]
  simp only [hdec]
  exact removePadding_addPadding input

theorem pbkdf2T_length (prf : List Nat → List Nat)
    (h64 : ∀ m : List Nat, (prf m).length = 64) :
    ∀ (n : Nat) (u t : List Nat), t.length = 64 → (pbkdf2T prf n u t).length = 64 := by
  intro n
  induction n with
  | zero =>
    intro u t ht
    rw [pbkdf2T]
    simpa using ht
  | succ m ih =>
    intro u t ht
    rw [pbkdf2T]
    rw [if_neg (by omega : ¬(m + 1 = 0))]
    rw [Nat.add_sub_cancel]
    apply ih
    rw [zipXor_length, ht, h64]
    decide

theorem pbkdf2Key_length_32 (prf : List Nat → List Nat → List Nat)
    (h64 : ∀ pw m : List Nat, (prf pw m).length = 64) (pw salt : List Nat) (it : Nat) :
    (pbkdf2Key prf pw salt it 32 64).length = 32 := by
  simp only [pbkdf2Key]
  rw [List.length_take]
  rw [show (32 + 64 - 1) / 64 = 1 by decide]
  rw [show List.range 1 = [0] by decide]
  simp only [List.foldl_cons, List.foldl_nil, List.nil_append]
  rw [pbkdf2T_length (prf pw) (h64 pw) _ _ _ (h64 pw _)]
  decide

theorem deriveKey_length (sha : List Nat → List Nat)
    (hsha : ∀ m : List Nat, (sha m).length = 64) (pw salt : List Nat) :
    (deriveKey sha pw salt).length = 32 := by
  simp only [deriveKey]
  exact pbkdf2Key_length_32 _ (fun p m => hmacSum_length sha hsha p m) pw salt
    pbkdf2Iterations

theorem deriveCipher_ok (sha : List Nat → List Nat)
    (hsha : ∀ m : List Nat, (sha m).length = 64) (pw salt : List Nat) :
    deriveCipher sha pw salt = .ok (deriveKey sha pw salt) := by
  simp only [deriveCipher]
  rw [if_pos (Or.inr (Or.inr (deriveKey_length sha hsha pw salt)))]

theorem encryptWithPhrase_ok (gp : GCMPrims) (sha : List Nat → List Nat)
    (hsha : ∀ m : List Nat, (sha m).length = 64) (phrase salt nonce pt : List Nat)
    (hn : nonce.length = nonceSize) :
    encryptWithPhrase gp sha phrase salt nonce pt
      = .ok (gp.gcmSeal (deriveKey sha phrase salt) nonce pt) := by
  have hd := deriveCipher_ok sha hsha phrase salt
  simp only [encryptWithPhrase, hd, exceptCase_ok]
  rw [if_pos hn]

/-- C2: the claim says every blob whose declared ephemeral-key length leaves
fewer than `hashSize + blockSize` remaining bytes yields `InvalidCiphertext`
and never a panic.  The empty blob does yield `InvalidCiphertext` (first
conjunct), but the one-byte blob `[5]` — declared length 5, no remaining
bytes at all — makes `DecryptWithPriv` evaluate `cipher[1:6]` on a
length-1 slice and panic before the length check runs (second conjunct):
the code crashes where the claim requires the `InvalidCiphertext` error. -/
theorem claim_C2_short_blob_crashes :
    decryptWithPriv unitPrims [9] [] = .err .invalidCipher
    ∧ decryptWithPriv unitPrims [9] [5] = GoRes.crash := by
  decide

/-- C5 counterexample: for the empty input the padding length is 32, but
the appended padding is 31 zero bytes followed by one byte 32 — so "every
appended padding byte's value equals the padding length" fails at the very
first padding byte. -/
theorem claim_C5_counterexample :
    ¬ (∀ x ∈ (addPadding ([] : List Nat)).drop ([] : List Nat).length,
        x = 32 - ([] : List Nat).length % 32) := by
  decide

/-- C5 amended: `addPadding b` appends `32 - len(b) % 32` bytes — a value
in `[1,32]` — consisting of zero bytes with only the **last** byte equal to
the padding length, and the result's length is a multiple of 32. -/
theorem claim_C5_padding (b : List Nat) :
    addPadding b
      = b ++ (List.replicate (32 - b.length % 32 - 1) 0 ++ [32 - b.length % 32])
    ∧ 1 ≤ 32 - b.length % 32 ∧ 32 - b.length % 32 ≤ 32
    ∧ (addPadding b).length = b.length + (32 - b.length % 32)
    ∧ (addPadding b).length % 32 = 0 :=
  ⟨rfl, padLen_pos _, padLen_le _, addPadding_length b, addPadding_length_mod b⟩

/-- C6 counterexample, two failures of the claim as stated.  A trailing
byte of 0 is not in `[1,32]`, yet `removePadding` accepts it (and
truncates nothing) instead of rejecting.  And on `[20]` — last byte 20,
within `[1,32]` but larger than the body — the code does not "return b
truncated by that many bytes": the slice expression `body[:len(body)-l]`
is `body[:-19]` and panics. -/
theorem claim_C6_counterexample :
    (removePadding [0] = GoRes.ok [0] ∧ ¬ (1 ≤ 0 ∧ 0 ≤ 32))
    ∧ removePadding [20] = GoRes.crash := by
  decide

/-- C6 amended: for non-empty `b` with last byte `l`, `removePadding`
fails with `PaddingIncorrect` exactly when `l` **exceeds 32** (so the
accepted range is `[0,32]`, not `[1,32]`); when `l ≤ 32` but `l` exceeds
the length of `b`, the truncating slice expression panics; and otherwise
it returns `b` truncated by `l` bytes. -/
theorem claim_C6_removePadding (b : List Nat) (l : Nat) (hlast : b.getLast? = some l) :
    removePadding b
      = if 32 < l then .err .paddingIncorrect
        else if b.length < l then .crash
        else .ok (b.take (b.length - l)) := by
  simp only [removePadding, hlast]

theorem claim_C6_witness :
    removePadding [1, 2]
      = if 32 < 2 then .err .paddingIncorrect
        else if [1, 2].length < 2 then .crash
        else .ok ([1, 2].take ([1, 2].length - 2)) :=
  claim_C6_removePadding [1, 2] 2 (by decide)

/-- C9: the claim says `GetEncrypted` returns an independent copy, so
mutating a returned row leaves the cache and later reads unchanged.  The
copy is shallow (only the outer slice is copied; the row slices are
shared), so the in-place cell writes `queryEncrypted` performs on a
matched row overwrite the provider's cached ciphertext cells with the
decrypted plaintext: a later `GetEncrypted` read observes the plaintext. -/
theorem claim_C9_shallow_copy :
    readRows ⟨[["site", "enc-user", "enc-pass"]], [0]⟩
        (getEncrypted ⟨[["site", "enc-user", "enc-pass"]], [0]⟩)
      = [["site", "enc-user", "enc-pass"]]
    ∧ readRows (queryMutate ⟨[["site", "enc-user", "enc-pass"]], [0]⟩ 0 "user" "pass")
        (getEncrypted (queryMutate ⟨[["site", "enc-user", "enc-pass"]], [0]⟩ 0 "user" "pass"))
      = [["site", "user", "pass"]] := by
  decide

/-- C1: for every key pair (private scalar `privD`, public point
`scalarBaseMult privD`) and every plaintext of at most 10000 bytes,
decryption inverts encryption.  The hypotheses state the library
primitives' contracts for P-521: the hash is 64 bytes, the AES block
permutation is inverted by its inverse and preserves the 16-byte block
size, the IV drawn by `makeRandom(16)` is 16 bytes, the uncompressed
point encoding fits the 1-byte length prefix (133 ≤ 255 for P-521),
`Unmarshal ∘ Marshal` is the identity on curve points, and the two ECDH
computations (`ephemeral·pub` at encryption, `priv·ephPub` at decryption)
agree on a shared point `s`. -/
theorem claim_C1_roundtrip {Point : Type} (pr : AsymPrims Point)
    (privD ephD iv input : List Nat) (s : Point)
    (hsha : ∀ m : List Nat, (pr.sha512 m).length = 64)
    (hinv : ∀ k blk : List Nat, blk.length = 16 → pr.aesDec k (pr.aesEnc k blk) = blk)
    (hEln : ∀ k blk : List Nat, blk.length = 16 → (pr.aesEnc k blk).length = 16)
    (hiv : iv.length = 16)
    (hml : (pr.marshal (pr.scalarBaseMult ephD)).length ≤ 255)
    (hdh1 : pr.scalarMult (pr.scalarBaseMult privD) ephD = some s)
    (hunm : pr.unmarshal (pr.marshal (pr.scalarBaseMult ephD))
      = some (pr.scalarBaseMult ephD))
    (hdh2 : pr.scalarMult (pr.scalarBaseMult ephD) privD = some s)
    (_hsize : input.length ≤ 10000) :
    ∃ blob, encryptWithPub pr (pr.scalarBaseMult privD) ephD iv input = .ok blob
      ∧ decryptWithPriv pr privD blob = .ok input :=
  asym_roundtrip pr privD ephD iv input s hsha hinv hEln hiv hml hdh1 hunm hdh2

theorem claim_C1_witness :
    ∃ blob, encryptWithPub unitPrims (unitPrims.scalarBaseMult [3]) [5]
        (List.replicate 16 0) [7, 7] = .ok blob
      ∧ decryptWithPriv unitPrims [3] blob = .ok [7, 7] :=
  claim_C1_roundtrip unitPrims [3] [5] (List.replicate 16 0) [7, 7] ()
    (fun m => by simp [unitPrims])
    (fun k blk h => rfl)
    (fun k blk h => h)
    (by decide) (by decide) rfl rfl rfl (by decide)

/-- C3: on any blob that passes the length checks and yields a shared
secret, a mismatch between the trailing 64 bytes and the HMAC (keyed by
the second 32 bytes of the hashed shared secret) over everything between
the ephemeral key and the trailing MAC makes `DecryptWithPriv` return
`InvalidMAC` — for **every** AES decryption primitive, i.e. no CBC
decryption influences the result and no plaintext is returned. -/
theorem claim_C3_invalidMAC {Point : Type} (pr : AsymPrims Point)
    (privD input : List Nat) (q s : Point)
    (h0 : ¬ input.length = 0)
    (hpar : ¬ input.length < 1 + input.headD 0)
    (hrem : ¬ (input.drop (1 + input.headD 0)).length < hashSize + blockSize)
    (hunm : pr.unmarshal ((input.drop 1).take (input.headD 0)) = some q)
    (hsm : pr.scalarMult q privD = some s)
    (hmm : ¬ hmacSum pr.sha512 ((pr.sha512 (pr.xBytes s)).drop 32)
        ((input.drop (1 + input.headD 0)).take
          ((input.drop (1 + input.headD 0)).length - hashSize))
      = (input.drop (1 + input.headD 0)).drop
          ((input.drop (1 + input.headD 0)).length - hashSize)) :
    decryptWithPriv pr privD input = .err .invalidMAC := by
  simp only [decryptWithPriv]
  rw [if_neg h0, if_neg hpar, if_neg hrem]
  simp only [hunm, hsm]
  rw [if_neg hmm]

theorem claim_C3_witness :
    decryptWithPriv unitPrims [1] (0 :: (List.replicate 79 0 ++ [1]))
      = .err .invalidMAC :=
  claim_C3_invalidMAC unitPrims [1] (0 :: (List.replicate 79 0 ++ [1])) () ()
    (by decide) (by decide) (by decide) (by decide) (by decide) (by decide)

/-- C4: for every password, salt and 12-byte nonce, opening the sealed
envelope returns the plaintext, given the hash-size contract and the
AEAD round-trip contract of the GCM library core. -/
theorem claim_C4_roundtrip (gp : GCMPrims) (sha : List Nat → List Nat)
    (hsha : ∀ m : List Nat, (sha m).length = 64)
    (hgcm : ∀ k n m : List Nat, n.length = nonceSize →
      gp.gcmOpen k n (gp.gcmSeal k n m) = .ok m)
    (phrase salt nonce pt : List Nat) (hn : nonce.length = nonceSize) :
    ∃ c, encryptWithPhrase gp sha phrase salt nonce pt = .ok c
      ∧ decryptWithPhrase gp sha phrase salt nonce c = .ok pt := by
  refine ⟨_, encryptWithPhrase_ok gp sha hsha phrase salt nonce pt hn, ?_⟩
  have hd := deriveCipher_ok sha hsha phrase salt
  simp only [decryptWithPhrase, hd, exceptCase_ok]
  rw [if_pos hn, hgcm _ _ _ hn, exceptCase_ok]

theorem claim_C4_witness :
    ∃ c, encryptWithPhrase idGCM zeroSha [1] [2] (List.replicate 12 0) [9] = .ok c
      ∧ decryptWithPhrase idGCM zeroSha [1] [2] (List.replicate 12 0) c = .ok [9] :=
  claim_C4_roundtrip idGCM zeroSha (fun m => by simp [zeroSha])
    (fun k n m h => rfl) [1] [2] (List.replicate 12 0) [9] (by decide)

/-- C7: every blob `EncryptWithPub` emits is exactly
`[1-byte length of the marshalled ephemeral key][ephemeral key][IV][CBC
ciphertext][HMAC]`, where the HMAC is keyed by the second 32 bytes of the
hashed shared secret and taken over `IV ‖ ciphertext`. -/
theorem claim_C7_layout {Point : Type} (pr : AsymPrims Point) (pub : Point)
    (ephD iv input : List Nat) (s : Point)
    (hsha : ∀ m : List Nat, (pr.sha512 m).length = 64)
    (hiv : iv.length = 16)
    (hdh : pr.scalarMult pub ephD = some s)
    (hml : (pr.marshal (pr.scalarBaseMult ephD)).length ≤ 255) :
    encryptWithPub pr pub ephD iv input =
      .ok (((pr.marshal (pr.scalarBaseMult ephD)).length
              :: (pr.marshal (pr.scalarBaseMult ephD) ++ iv))
        ++ (cbcEncAux (pr.aesEnc ((pr.sha512 (pr.xBytes s)).take 32))
              ((addPadding input).length / blockSize) iv (addPadding input)
          ++ hmacSum pr.sha512 ((pr.sha512 (pr.xBytes s)).drop 32)
              (iv ++ cbcEncAux (pr.aesEnc ((pr.sha512 (pr.xBytes s)).take 32))
                ((addPadding input).length / blockSize) iv (addPadding input)))) := by
  rw [encryptWithPub_ok pr pub ephD iv input s hsha hiv hdh,
    Nat.mod_eq_of_lt (by omega)]

theorem claim_C7_witness :
    encryptWithPub unitPrims () [5] (List.replicate 16 0) [7] =
      .ok (((unitPrims.marshal (unitPrims.scalarBaseMult [5])).length
              :: (unitPrims.marshal (unitPrims.scalarBaseMult [5])
                ++ List.replicate 16 0))
        ++ (cbcEncAux (unitPrims.aesEnc ((unitPrims.sha512 (unitPrims.xBytes ())).take 32))
              ((addPadding [7]).length / blockSize) (List.replicate 16 0) (addPadding [7])
          ++ hmacSum unitPrims.sha512 ((unitPrims.sha512 (unitPrims.xBytes ())).drop 32)
              (List.replicate 16 0
                ++ cbcEncAux (unitPrims.aesEnc ((unitPrims.sha512 (unitPrims.xBytes ())).take 32))
                  ((addPadding [7]).length / blockSize) (List.replicate 16 0)
                  (addPadding [7])))) :=
  claim_C7_layout unitPrims () [5] (List.replicate 16 0) [7] ()
    (fun m => by simp [unitPrims]) (by decide) rfl (by decide)

/-- C8: the claim says that when persisting the new WrappedKeyRecord (the
`SetKey` write) fails after the new salt was persisted, the salt is rolled
back.  Evaluating `ResetPass` on a run where `config.UpdateFile` succeeds
and `SetKey` fails (old salt `[1]`, new salt bytes `[2]`): the in-memory
and persisted salt both end as the **new** salt `[2] ≠ [1]` — no rollback
happens on this path (the code restores `oldSalt` only when `UpdateFile`
itself fails). -/
theorem claim_C8_no_rollback (gp : GCMPrims) (sha : List Nat → List Nat) :
    (resetPass gp sha id true false [2] (List.replicate 12 0) true [3] [4]
        ⟨[1], [1], [9], [8]⟩).cfgSalt = [2]
    ∧ (resetPass gp sha id true false [2] (List.replicate 12 0) true [3] [4]
        ⟨[1], [1], [9], [8]⟩).fileSalt = [2]
    ∧ ([2] : List Nat) ≠ [1] := by
  simp only [resetPass, id_eq]
  cases encryptWithPhrase gp sha [4] [2] (List.replicate 12 0) [3] with
  | ok c =>
    rw [goResCase_ok]
    exact ⟨rfl, rfl, by decide⟩
  | err e =>
    rw [goResCase_err]
    exact ⟨rfl, rfl, by decide⟩
  | crash =>
    rw [goResCase_crash]
    exact ⟨rfl, rfl, by decide⟩

/-- C10: for every password and salt (including empty ones) the derived
PBKDF2 key is 32 bytes, so `aes.NewCipher` and `cipher.NewGCM` never
fail: `DeriveCipher` always returns an AEAD with a nil error, and
`EncryptWithPhrase` with a 12-byte nonce always succeeds — its error
branches are unreachable. -/
theorem claim_C10_derive_total (sha : List Nat → List Nat)
    (hsha : ∀ m : List Nat, (sha m).length = 64) (password salt : List Nat) :
    deriveCipher sha password salt = .ok (deriveKey sha password salt)
    ∧ ∀ (gp : GCMPrims) (nonce pt : List Nat), nonce.length = nonceSize →
        encryptWithPhrase gp sha password salt nonce pt
          = .ok (gp.gcmSeal (deriveKey sha password salt) nonce pt) :=
  ⟨deriveCipher_ok sha hsha password salt,
   fun gp nonce pt hn => encryptWithPhrase_ok gp sha hsha password salt nonce pt hn⟩

theorem claim_C10_witness :
    deriveCipher zeroSha [] [] = .ok (deriveKey zeroSha [] [])
    ∧ encryptWithPhrase idGCM zeroSha [] [] (List.replicate 12 0) [5]
      = .ok (idGCM.gcmSeal (deriveKey zeroSha [] []) (List.replicate 12 0) [5]) :=
  ⟨(claim_C10_derive_total zeroSha (fun m => by simp [zeroSha]) [] []).1,
   (claim_C10_derive_total zeroSha (fun m => by simp [zeroSha]) [] []).2
     idGCM (List.replicate 12 0) [5] (by decide)⟩

end Secretable
